import Mathlib

/-
Verification development for the D-Type / I-Type archetype quiz repository.

The scoring engine (idix_engine.py) is embedded shallowly:
  * Python floats are modelled as rationals (all literals in the source are
    exactly representable), except where math.sqrt forces real numbers;
    np.sqrt is modelled as Real.sqrt.
  * Python dicts are modelled as association lists (String keys); a genuine
    dict has pairwise distinct keys, which appears as a Nodup hypothesis
    where it matters.
  * np.random.normal is modelled by an explicit noise oracle
    (a function from the trial index to the sampled noise vector), so the
    Monte Carlo loop becomes a deterministic function of that oracle.
  * A Python KeyError (counts[None] when no archetype beats the -1e9
    sentinel) is modelled by an Option-valued result: none means the call
    raises instead of returning.
-/

namespace DTypeSpec

/-- The six core dimensions, from idix_engine.py (CORE_DIMENSIONS). -/
def CORE_DIMENSIONS : List String :=
  ["clinical_decision_style", "response_tempo", "risk_orientation",
   "team_communication", "stress_handling", "learning_adaptation"]

/-- One entry of the answers dict: the value under an answer key.
Fields are Option-valued because the source reads them with .get and a
default (value defaults to 3, reverse to False, dimension to absent). -/
structure AnswerMeta where
  value : Option ℚ
  dimension : Option String
  rev : Option Bool
  deriving DecidableEq

/-- The reverse-scoring step of normalize_scores: val = 6 - val when the
reverse flag is set, with the source's defaults for missing fields. -/
def reverseAdjust (m : AnswerMeta) : ℚ :=
  let val := m.value.getD 3
  if m.rev.getD false then 6 - val else val

/-- The list dimension_values[dim] built by the first loop of
normalize_scores: the (reverse-adjusted) values of the answers whose
dimension field equals dim.  Answers whose dimension is not a core
dimension are skipped by the source; querying only core dimensions below
makes the equality test equivalent to the source's membership test. -/
def dimensionValues (answers : List AnswerMeta) (dim : String) : List ℚ :=
  (answers.filter (fun m => m.dimension.getD "" = dim)).map reverseAdjust

/-- The score normalize_scores assigns to one dimension: midpoint 1/2 when
no answer contributes, otherwise (mean - 1) / 4. -/
def dimScore (answers : List AnswerMeta) (dim : String) : ℚ :=
  let vals := dimensionValues answers dim
  if vals.isEmpty then 1/2
  else ((vals.sum / (vals.length : ℚ)) - 1) / 4

/-- normalize_scores from idix_engine.py: one (dimension, score) pair per
core dimension. -/
def normalize_scores (answers : List AnswerMeta) : List (String × ℚ) :=
  CORE_DIMENSIONS.map (fun dim => (dim, dimScore answers dim))

/-- An archetype catalog entry (the fields the engine reads). -/
structure Archetype where
  primary_dimensions : List String
  secondary_dimensions : List String
  tertiary_dimensions : List String
  dimension_weights : List (String × ℚ)
  deriving DecidableEq

/-- The empty Python dict an absent archetype degrades to in
archetypes.get(best_name, empty dict): every field reads as missing. -/
instance : Inhabited Archetype := ⟨⟨[], [], [], []⟩⟩

/-- build_archetype_vector from idix_engine.py (written _build_archetype_vector
in the source): 1.0 for primary dimensions, 0.7 secondary, 0.4 tertiary,
0.5 otherwise, in CORE_DIMENSIONS order. -/
def build_archetype_vector (a : Archetype) : List ℚ :=
  CORE_DIMENSIONS.map (fun dim =>
    if dim ∈ a.primary_dimensions then 1
    else if dim ∈ a.secondary_dimensions then 7/10
    else if dim ∈ a.tertiary_dimensions then 2/5
    else 1/2)

/-- extract_weight_vector from idix_engine.py (_extract_weight_vector in the
source): dimension_weights looked up per core dimension, defaulting to 0. -/
def extract_weight_vector (a : Archetype) : List ℚ :=
  CORE_DIMENSIONS.map (fun dim => ((a.dimension_weights.lookup dim).getD 0))

/-- The user's 6-dimensional vector: final_scores.get(dim, 0.5) per core
dimension (determine_archetype / monte_carlo_probabilities). -/
def userVec (final_scores : List (String × ℚ)) : List ℚ :=
  CORE_DIMENSIONS.map (fun dim => ((final_scores.lookup dim).getD (1/2)))

/-- The radicand of the weighted Euclidean distance:
sum(weight_vec * (user_vec - arche_vec) ** 2). -/
def weighted_distance_sq (u a w : List ℚ) : ℚ :=
  (List.zipWith3 (fun wi ui ai => wi * (ui - ai) ^ 2) w u a).sum

/-- weighted_distance from idix_engine.py (_weighted_distance): the square
root of the weighted sum of squared differences. -/
noncomputable def weighted_distance (u a w : List ℚ) : ℝ :=
  Real.sqrt ((weighted_distance_sq u a w : ℚ) : ℝ)

/-- weighted_similarity from idix_engine.py (_weighted_similarity):
sum(weight_vec * user_vec * arche_vec). -/
def weighted_similarity (u a w : List ℚ) : ℚ :=
  (List.zipWith3 (fun wi ui ai => wi * ui * ai) w u a).sum

/-- hybrid_score from idix_engine.py (_hybrid_score): similarity minus
distance. -/
noncomputable def hybrid_score (u a w : List ℚ) : ℝ :=
  ((weighted_similarity u a w : ℚ) : ℝ) - weighted_distance u a w

/-- The hybrid score a catalog pair (name, data) receives against the raw
vector v (archetype vector and weights both derived from data). -/
noncomputable def archeScore (v : List ℚ) (p : String × Archetype) : ℝ :=
  hybrid_score v (build_archetype_vector p.2) (extract_weight_vector p.2)

/-- The hybrid score an archetype receives against the user vector derived
from final_scores. -/
noncomputable def hybridFor (final_scores : List (String × ℚ))
    (p : String × Archetype) : ℝ :=
  archeScore (userVec final_scores) p

open Classical in
/-- The best-archetype selection loop shared verbatim by determine_archetype
and each Monte Carlo trial: starting from (best_name, best_score), replace
the running best whenever a strictly larger hybrid score appears. -/
noncomputable def bestLoop (v : List ℚ) :
    List (String × Archetype) → Option String → ℝ → Option String × ℝ
  | [], best, bestScore => (best, bestScore)
  | p :: rest, best, bestScore =>
    if archeScore v p > bestScore then bestLoop v rest (some p.1) (archeScore v p)
    else bestLoop v rest best bestScore

/-- determine_archetype from idix_engine.py: (None, empty dict) for an empty
catalog, otherwise the loop winner paired with archetypes.get(best_name, empty). -/
noncomputable def determine_archetype (final_scores : List (String × ℚ))
    (archetypes : List (String × Archetype)) : Option String × Archetype :=
  match archetypes with
  | [] => (none, default)
  | _ =>
    let best := (bestLoop (userVec final_scores) archetypes none (-(10 ^ 9 : ℝ))).1
    (best,
      match best with
      | none => default
      | some n => (archetypes.lookup n).getD default)

/-- np.clip(x, 0.0, 1.0) on one coordinate. -/
def clip01 (x : ℚ) : ℚ := min (max x 0) 1

/-- One noisy resample: user_vec + noise, clipped into the unit cube. -/
def noisyVec (u : List ℚ) (noise : List ℚ) : List ℚ :=
  (List.zipWith (fun a b => a + b) u noise).map clip01

/-- The archetype a single Monte Carlo trial buckets its resample to:
the inner loop of monte_carlo_probabilities run on the noisy vector,
starting again from (None, -1e9). -/
noncomputable def mc_choice (archetypes : List (String × Archetype))
    (u : List ℚ) (noiseF : ℕ → List ℚ) (t : ℕ) : Option String :=
  (bestLoop (noisyVec u (noiseF t)) archetypes none (-(10 ^ 9 : ℝ))).1

/-- The counts dict after the first t Monte Carlo trials; none models the
KeyError Python raises on counts[None] when a trial's best_name stays None. -/
noncomputable def mcLoop (archetypes : List (String × Archetype))
    (u : List ℚ) (noiseF : ℕ → List ℚ) : ℕ → Option (List (String × ℕ))
  | 0 => some (archetypes.map (fun p => (p.1, 0)))
  | t + 1 =>
    match mcLoop archetypes u noiseF t with
    | none => none
    | some counts =>
      match mc_choice archetypes u noiseF t with
      | none => none
      | some name =>
        some (counts.map (fun p => if p.1 = name then (p.1, p.2 + 1) else p))

/-- How many of the first `trials` trials bucket to `name`. -/
noncomputable def trialCount (archetypes : List (String × Archetype))
    (u : List ℚ) (noiseF : ℕ → List ℚ) (trials : ℕ) (name : String) : ℕ :=
  ((Finset.range trials).filter
    (fun t => mc_choice archetypes u noiseF t = some name)).card

/-- Accumulator of Python's max(probs, key=probs.get): keep the current
best unless a strictly larger value appears (first maximum wins). -/
def pyMaxGo (q : String × ℚ) : List (String × ℚ) → String × ℚ
  | [] => q
  | p :: rest => if p.2 > q.2 then pyMaxGo p rest else pyMaxGo q rest

/-- Python's max(probs, key=probs.get) over an association list. -/
def pyMax : List (String × ℚ) → Option (String × ℚ)
  | [] => none
  | p :: rest => some (pyMaxGo p rest)

/-- The descending-by-value order used by
sorted(probs.items(), key=lambda x: x[1], reverse=True). -/
def descVal (x y : String × ℚ) : Prop := y.2 ≤ x.2

instance : DecidableRel descVal := fun x y => inferInstanceAs (Decidable (y.2 ≤ x.2))

instance : IsTotal (String × ℚ) descVal := ⟨fun a b => le_total b.2 a.2⟩

instance : IsTrans (String × ℚ) descVal := ⟨fun _ _ _ h1 h2 => le_trans h2 h1⟩

/-- Python's stable descending sort of the probability items, modelled by
stable insertion sort under descVal (extensionally equal to sorted(...,
reverse=True)). -/
def sortedProbs (probs : List (String × ℚ)) : List (String × ℚ) :=
  List.insertionSort descVal probs

/-- The tail of monte_carlo_probabilities after the counts are known:
percentages, primary by maximal probability, stability = probs[primary],
shadow = second entry of the descending sort (or the primary itself when
only one archetype exists).  none models max() on an empty dict, which the
nonempty-catalog guard makes unreachable. -/
def mcFinish (probs : List (String × ℚ)) :
    Option (List (String × ℚ) × ℚ × (String × ℚ)) :=
  match pyMax probs with
  | none => none
  | some primary =>
    let stability := (probs.lookup primary.1).getD 0
    match sortedProbs probs with
    | _ :: second :: _ => some (probs, stability, second)
    | _ => some (probs, stability, (primary.1, stability))

/-- monte_carlo_probabilities from idix_engine.py, the noise oracle made
explicit; none models a KeyError escaping the call. -/
noncomputable def monte_carlo_probabilities (final_scores : List (String × ℚ))
    (archetypes : List (String × Archetype)) (trials : ℕ)
    (noiseF : ℕ → List ℚ) : Option (List (String × ℚ) × ℚ × (String × ℚ)) :=
  match archetypes with
  | [] => some ([], 0, ("None", 0))
  | _ =>
    match mcLoop archetypes (userVec final_scores) noiseF trials with
    | none => none
    | some counts =>
      mcFinish (counts.map (fun p => (p.1, (p.2 : ℚ) / (trials : ℚ) * 100)))

/-- load_json from D-Type.py / I-Type.py, the file system and the JSON
parser made explicit: any read error or parse error is caught and the
supplied default returned. -/
def load_json (α : Type) (readFile : String → Except String String)
    (parseJson : String → Except String α) (path : String) (default : α) : α :=
  match readFile path with
  | Except.error _ => default
  | Except.ok s =>
    match parseJson s with
    | Except.error _ => default
    | Except.ok v => v

/-- The names bound and visible inside log_to_google_sheets of
data_logger.py when the row construction starts: module imports, the
module global SHEET_ID and the function itself, the five parameters, the
locals assigned before the row (scope, creds, client, sheet, shadow_name,
shadow_pct), and the builtin round used by the row expression. -/
def loggerBoundNames : List String :=
  ["gspread", "ServiceAccountCredentials", "datetime", "json", "SHEET_ID",
   "log_to_google_sheets", "final_archetype", "stability", "shadow",
   "scores", "raw_answers", "scope", "creds", "client", "sheet",
   "shadow_name", "shadow_pct", "round"]

/-- The names the row list display of data_logger.py references, in
left-to-right evaluation order (element 2 evaluates the callee name
final_str before its argument). -/
def rowNameRefs : List String :=
  ["datetime", "final_str", "final_archetype", "round", "stability",
   "shadow_name", "round", "shadow_pct", "scores", "scores", "scores",
   "scores", "scores", "scores", "json", "raw_answers"]

/-- Python name resolution over the row expression: evaluation stops at the
first reference that no visible binding resolves. -/
def firstUnboundName (refs bound : List String) : Option String :=
  refs.find? (fun n => !(bound.contains n))

/-- The row-construction-and-append tail of log_to_google_sheets: a
NameError aborts before sheet.append_row runs; on success the performed
effect list records the append.  The five arguments are carried to model a
call, though name resolution does not depend on their values. -/
def log_to_google_sheets
    (final_archetype stability shadow scores raw_answers : String) :
    Except String (List String) :=
  match final_archetype, stability, shadow, scores, raw_answers with
  | _, _, _, _, _ =>
    match firstUnboundName rowNameRefs loggerBoundNames with
    | some n => Except.error ("NameError: name " ++ n ++ " is not defined")
    | none => Except.ok ["sheet.append_row"]

/-- Whether a call to log_to_google_sheets reaches sheet.append_row. -/
def rowAppended
    (final_archetype stability shadow scores raw_answers : String) : Bool :=
  match log_to_google_sheets final_archetype stability shadow scores
      raw_answers with
  | Except.ok _ => true
  | Except.error _ => false

/-- The property claim C2 asserts of one input: determine_archetype returns
an actual catalog name N with the entry stored under N, whose hybrid score
is at least every other archetype's. -/
noncomputable def C2Claim (final_scores : List (String × ℚ))
    (archetypes : List (String × Archetype)) : Prop :=
  ∃ N data, determine_archetype final_scores archetypes = (some N, data) ∧
    (N, data) ∈ archetypes ∧
    ∀ q ∈ archetypes, hybridFor final_scores q ≤ hybridFor final_scores (N, data)

/-- The property claim C3 asserts of one input: every one of the `trials`
iterations buckets its resample to an archetype of maximal hybrid score for
that resample, and the call returns a probability (count / trials) * 100 in
[0, 100] for every archetype. -/
noncomputable def C3Claim (final_scores : List (String × ℚ))
    (archetypes : List (String × Archetype)) (trials : ℕ)
    (noiseF : ℕ → List ℚ) : Prop :=
  (∀ t < trials, ∃ p ∈ archetypes,
      mc_choice archetypes (userVec final_scores) noiseF t = some p.1 ∧
      ∀ q ∈ archetypes,
        archeScore (noisyVec (userVec final_scores) (noiseF t)) q ≤
          archeScore (noisyVec (userVec final_scores) (noiseF t)) p) ∧
  (∃ probs stab shadow,
      monte_carlo_probabilities final_scores archetypes trials noiseF =
        some (probs, stab, shadow) ∧
      probs = archetypes.map (fun p => (p.1,
        ((trialCount archetypes (userVec final_scores) noiseF trials p.1 : ℚ) /
          (trials : ℚ)) * 100)) ∧
      ∀ q ∈ probs, 0 ≤ q.2 ∧ q.2 ≤ 100)

/-- x is the maximum of the values of the association list l. -/
def isMaxVal (x : ℚ) (l : List (String × ℚ)) : Prop :=
  x ∈ l.map Prod.snd ∧ ∀ v ∈ l.map Prod.snd, v ≤ x

/-- The property claim C5 asserts of one input: the archetype whose share
the Monte Carlo run reports as the stability (the maximal-probability one)
is the archetype determine_archetype reports as primary. -/
noncomputable def C5Claim (final_scores : List (String × ℚ))
    (archetypes : List (String × Archetype)) (trials : ℕ)
    (noiseF : ℕ → List ℚ) : Prop :=
  ∃ probs stab shadow primary,
    monte_carlo_probabilities final_scores archetypes trials noiseF =
      some (probs, stab, shadow) ∧
    pyMax probs = some primary ∧ stab = primary.2 ∧
    (determine_archetype final_scores archetypes).1 = some primary.1

/-- The property claim C6 asserts of the returned probabilities and shadow:
the shadow is an entry of probs of second-highest value (some entry of at
least its value remains on top, everything else is at most it). -/
def C6Claim (probs : List (String × ℚ)) (shadow : String × ℚ) : Prop :=
  ∃ top rest, probs.Perm (top :: shadow :: rest) ∧
    shadow.2 ≤ top.2 ∧ ∀ q ∈ rest, q.2 ≤ shadow.2

/-- Tier characterization of one (dimension, component) pair of an
archetype vector, claim C9: components come from the fixed palette and the
highest listed tier wins. -/
def TierSpec (a : Archetype) (p : String × ℚ) : Prop :=
  (p.2 = 1 ∨ p.2 = 7/10 ∨ p.2 = 2/5 ∨ p.2 = 1/2) ∧
  (p.1 ∈ a.primary_dimensions → p.2 = 1) ∧
  (p.1 ∉ a.primary_dimensions → p.1 ∈ a.secondary_dimensions → p.2 = 7/10) ∧
  (p.1 ∉ a.primary_dimensions → p.1 ∉ a.secondary_dimensions →
    p.1 ∈ a.tertiary_dimensions → p.2 = 2/5) ∧
  (p.1 ∉ a.primary_dimensions → p.1 ∉ a.secondary_dimensions →
    p.1 ∉ a.tertiary_dimensions → p.2 = 1/2)

/-- Pathological catalog entry: every dimension weight is -(10^10), so its
hybrid score against the all-0.5 user vector is -1.5 * 10^10, below the
-1e9 sentinel of the selection loop. -/
def cexArch : Archetype :=
  ⟨[], [], [], CORE_DIMENSIONS.map (fun d => (d, -(10 ^ 10 : ℚ)))⟩

/-- Singleton catalog built from the pathological entry. -/
def cexCat : List (String × Archetype) := [("A", cexArch)]

/-- Archetype with primary dimension clinical_decision_style and weight 1
there: its vector is (1, .5, .5, .5, .5, .5). -/
def archA : Archetype :=
  ⟨["clinical_decision_style"], [], [], [("clinical_decision_style", 1)]⟩

/-- Archetype with no listed dimensions and weight 1 on
clinical_decision_style: its vector is all 0.5. -/
def archB : Archetype := ⟨[], [], [], [("clinical_decision_style", 1)]⟩

/-- Two-entry catalog used for the concrete runs. -/
def catAB : List (String × Archetype) := [("A", archA), ("B", archB)]

/-- final_scores putting the user at 1.0 on clinical_decision_style. -/
def fsOne : List (String × ℚ) := [("clinical_decision_style", 1)]

/-- Noise oracle that always samples the zero vector. -/
def zeroNoise : ℕ → List ℚ := fun _ => List.replicate 6 0

/-- Noise oracle pushing the first coordinate down by 1 every trial. -/
def flipNoise : ℕ → List ℚ := fun _ => [-1, 0, 0, 0, 0, 0]

/-- A concrete answers dict: two response_tempo items (one reverse-scored)
and one stress_handling item. -/
def demoAnswers : List AnswerMeta :=
  [⟨some 4, some "response_tempo", some false⟩,
   ⟨some 1, some "response_tempo", some true⟩,
   ⟨some 2, some "stress_handling", some false⟩]

/-- The selection loop only improves the running best score and ends at the
score of some processed archetype unless it never moved. -/
theorem bestLoop_spec (v : List ℚ) :
    ∀ (l : List (String × Archetype)) (b : Option String) (s : ℝ),
    (∀ p ∈ l, archeScore v p ≤ (bestLoop v l b s).2) ∧
    s ≤ (bestLoop v l b s).2 ∧
    (bestLoop v l b s = (b, s) ∨
      ∃ p ∈ l, bestLoop v l b s = (some p.1, archeScore v p))
  | [], b, s => by simp [bestLoop]
  | p :: rest, b, s => by
    by_cases h : archeScore v p > s
    · have ih := bestLoop_spec v rest (some p.1) (archeScore v p)
      have he : bestLoop v (p :: rest) b s =
          bestLoop v rest (some p.1) (archeScore v p) := by
        simp only [bestLoop, if_pos h]
      refine ⟨?_, ?_, ?_⟩
      · intro q hq
        rw [he]
        rcases List.mem_cons.mp hq with rfl | hq
        · exact ih.2.1
        · exact ih.1 q hq
      · rw [he]; exact le_trans (le_of_lt h) ih.2.1
      · rw [he]
        rcases ih.2.2 with heq | ⟨q, hq, heq⟩
        · exact Or.inr ⟨p, List.mem_cons_self p rest, heq⟩
        · exact Or.inr ⟨q, List.mem_cons_of_mem p hq, heq⟩
    · have ih := bestLoop_spec v rest b s
      have he : bestLoop v (p :: rest) b s = bestLoop v rest b s := by
        simp only [bestLoop, if_neg h]
      refine ⟨?_, ?_, ?_⟩
      · intro q hq
        rw [he]
        rcases List.mem_cons.mp hq with rfl | hq
        · exact le_trans (not_lt.mp h) ih.2.1
        · exact ih.1 q hq
      · rw [he]; exact ih.2.1
      · rw [he]
        rcases ih.2.2 with heq | ⟨q, hq, heq⟩
        · exact Or.inl heq
        · exact Or.inr ⟨q, List.mem_cons_of_mem p hq, heq⟩

/-- As soon as one archetype beats the -1e9 sentinel, the selection loop
returns the name and score of an archetype whose score is maximal. -/
theorem bestLoop_argmax (v : List ℚ) (l : List (String × Archetype))
    (hex : ∃ p ∈ l, -(10 ^ 9 : ℝ) < archeScore v p) :
    ∃ p ∈ l, bestLoop v l none (-(10 ^ 9 : ℝ)) = (some p.1, archeScore v p) ∧
      ∀ q ∈ l, archeScore v q ≤ archeScore v p := by
  obtain ⟨spec1, _, spec3⟩ := bestLoop_spec v l none (-(10 ^ 9 : ℝ))
  rcases spec3 with heq | ⟨p, hp, heq⟩
  · obtain ⟨p, hp, hlt⟩ := hex
    have := spec1 p hp
    rw [heq] at this
    exact absurd this (not_le.mpr hlt)
  · refine ⟨p, hp, heq, fun q hq => ?_⟩
    have := spec1 q hq
    rwa [heq] at this

/-- Key-based lookup finds exactly the stored pair when keys are distinct. -/
theorem lookup_of_mem_nodup {β : Type} {l : List (String × β)}
    (hnd : (l.map Prod.fst).Nodup) {p : String × β} (hp : p ∈ l) :
    l.lookup p.1 = some p.2 := by
  induction l with
  | nil => cases hp
  | cons q rest ih =>
    rcases List.mem_cons.mp hp with rfl | hp
    · simp [List.lookup]
    · have hne : p.1 ≠ q.1 := by
        intro hcontra
        have : q.1 ∈ rest.map Prod.fst :=
          hcontra ▸ List.mem_map_of_mem Prod.fst hp
        exact (List.nodup_cons.mp hnd).1 this
      have : (p.1 == q.1) = false := beq_false_of_ne hne
      simp only [List.lookup, this]
      exact ih (List.nodup_cons.mp hnd).2 hp

/-- A successful lookup returns a pair stored in the list. -/
theorem mem_of_lookup_eq_some {β : Type} {l : List (String × β)} {k : String}
    {v : β} (h : l.lookup k = some v) : (k, v) ∈ l := by
  induction l with
  | nil => cases h
  | cons q rest ih =>
    by_cases hk : k == q.1
    · simp only [List.lookup, hk] at h
      have : k = q.1 := eq_of_beq hk
      cases h
      exact this ▸ List.mem_cons_self q rest
    · simp only [List.lookup, Bool.not_eq_true] at h hk
      rw [hk] at h
      exact List.mem_cons_of_mem q (ih h)

/-- Counting one more trial adds one exactly when that trial buckets to the
name. -/
theorem trialCount_succ (archetypes : List (String × Archetype)) (u : List ℚ)
    (noiseF : ℕ → List ℚ) (t : ℕ) (name : String) :
    trialCount archetypes u noiseF (t + 1) name =
      trialCount archetypes u noiseF t name +
        (if mc_choice archetypes u noiseF t = some name then 1 else 0) := by
  classical
  unfold trialCount
  rw [Finset.range_succ, Finset.filter_insert]
  split
  · rw [Finset.card_insert_of_not_mem (by simp)]
  · rw [Nat.add_zero]

/-- When every processed trial buckets successfully, the counts dict is one
entry per catalog name holding that name's trial count. -/
theorem mcLoop_eq_of_choices (archetypes : List (String × Archetype))
    (u : List ℚ) (noiseF : ℕ → List ℚ) :
    ∀ t : ℕ, (∀ s < t, mc_choice archetypes u noiseF s ≠ none) →
    mcLoop archetypes u noiseF t =
      some (archetypes.map (fun p => (p.1, trialCount archetypes u noiseF t p.1)))
  | 0, _ => by
    simp only [mcLoop, trialCount, Finset.range_zero, Finset.filter_empty,
      Finset.card_empty]
  | t + 1, h => by
    have ih := mcLoop_eq_of_choices archetypes u noiseF t
      (fun s hs => h s (Nat.lt_trans hs (Nat.lt_succ_self t)))
    cases hc : mc_choice archetypes u noiseF t with
    | none => exact absurd hc (h t (Nat.lt_succ_self t))
    | some name =>
      simp only [mcLoop, ih, hc]
      congr 1
      rw [List.map_map]
      apply List.map_congr_left
      intro p _
      simp only [Function.comp_apply]
      rw [trialCount_succ]
      by_cases hp : p.1 = name
      · rw [if_pos hp, if_pos (by rw [hc, hp])]
      · rw [if_neg hp, if_neg (by rw [hc]; intro hcon; exact hp (Option.some_injective _ hcon).symm), Nat.add_zero]

/-- A Monte Carlo run that produced counts had every trial bucket
successfully. -/
theorem mcLoop_choices_of_some (archetypes : List (String × Archetype))
    (u : List ℚ) (noiseF : ℕ → List ℚ) :
    ∀ (t : ℕ) (counts : List (String × ℕ)),
      mcLoop archetypes u noiseF t = some counts →
      ∀ s < t, mc_choice archetypes u noiseF s ≠ none
  | 0, _, _ => fun s hs => absurd hs (Nat.not_lt_zero s)
  | t + 1, counts, h => by
    intro s hs
    simp only [mcLoop] at h
    cases h1 : mcLoop archetypes u noiseF t with
    | none => rw [h1] at h; exact absurd h (by simp)
    | some c =>
      rw [h1] at h
      cases h2 : mc_choice archetypes u noiseF t with
      | none => rw [h2] at h; exact absurd h (by simp)
      | some nm =>
        rcases Nat.lt_succ_iff_lt_or_eq.mp hs with h3 | rfl
        · exact mcLoop_choices_of_some archetypes u noiseF t c h1 s h3
        · rw [h2]; exact fun hcon => Option.noConfusion hcon

/-- A successful counts dict is exactly the per-name trial counts. -/
theorem mcLoop_some_eq (archetypes : List (String × Archetype)) (u : List ℚ)
    (noiseF : ℕ → List ℚ) (t : ℕ) (counts : List (String × ℕ))
    (h : mcLoop archetypes u noiseF t = some counts) :
    counts = archetypes.map
      (fun p => (p.1, trialCount archetypes u noiseF t p.1)) := by
  have hch := mcLoop_choices_of_some archetypes u noiseF t counts h
  have := mcLoop_eq_of_choices archetypes u noiseF t hch
  rw [h] at this
  exact Option.some_injective _ this

/-- Python's max-accumulator returns an element of the candidates and a
maximal one. -/
theorem pyMaxGo_spec (q : String × ℚ) :
    ∀ l : List (String × ℚ),
      pyMaxGo q l ∈ q :: l ∧ ∀ p ∈ q :: l, p.2 ≤ (pyMaxGo q l).2
  | [] => by simp [pyMaxGo]
  | p :: rest => by
    by_cases h : p.2 > q.2
    · have ih := pyMaxGo_spec p rest
      have he : pyMaxGo q (p :: rest) = pyMaxGo p rest := by
        simp only [pyMaxGo, if_pos h]
      rw [he]
      refine ⟨List.mem_cons_of_mem q ih.1, ?_⟩
      intro x hx
      rcases List.mem_cons.mp hx with rfl | hx
      · exact le_trans (le_of_lt h) (ih.2 p (List.mem_cons_self p rest))
      · exact ih.2 x hx
    · have ih := pyMaxGo_spec q rest
      have he : pyMaxGo q (p :: rest) = pyMaxGo q rest := by
        simp only [pyMaxGo, if_neg h]
      rw [he]
      refine ⟨?_, ?_⟩
      · rcases List.mem_cons.mp ih.1 with heq | hmem
        · rw [heq]; exact List.mem_cons_self q (p :: rest)
        · exact List.mem_cons_of_mem q (List.mem_cons_of_mem p hmem)
      · intro x hx
        rcases List.mem_cons.mp hx with rfl | hx
        · exact ih.2 x (List.mem_cons_self x rest)
        rcases List.mem_cons.mp hx with rfl | hx
        · exact le_trans (not_lt.mp h) (ih.2 q (List.mem_cons_self q rest))
        · exact ih.2 x (List.mem_cons_of_mem q hx)

/-- Python's max over a nonempty dict returns a first-maximal entry. -/
theorem pyMax_spec (l : List (String × ℚ)) (h : l ≠ []) :
    ∃ q, pyMax l = some q ∧ q ∈ l ∧ ∀ p ∈ l, p.2 ≤ q.2 := by
  cases l with
  | nil => exact absurd rfl h
  | cons p rest => exact ⟨pyMaxGo p rest, rfl, (pyMaxGo_spec p rest).1,
      (pyMaxGo_spec p rest).2⟩

/-- The stable descending sort is a permutation of its input. -/
theorem sortedProbs_perm (l : List (String × ℚ)) : (sortedProbs l).Perm l :=
  List.perm_insertionSort descVal l

/-- The stable descending sort is sorted by descending value. -/
theorem sortedProbs_sorted (l : List (String × ℚ)) :
    List.Sorted descVal (sortedProbs l) :=
  List.sorted_insertionSort descVal l

/-- The user vector always has one component per core dimension. -/
theorem userVec_length (final_scores : List (String × ℚ)) :
    (userVec final_scores).length = 6 := by
  simp [userVec, CORE_DIMENSIONS]

/-- With final scores inside [0, 1], every user-vector component (looked-up
score or 0.5 default) is inside [0, 1]. -/
theorem userVec_mem_unit (final_scores : List (String × ℚ))
    (hfs : ∀ q ∈ final_scores, 0 ≤ q.2 ∧ q.2 ≤ 1) :
    ∀ x ∈ userVec final_scores, 0 ≤ x ∧ x ≤ 1 := by
  intro x hx
  obtain ⟨dim, _, hdx⟩ := List.mem_map.mp hx
  cases hl : final_scores.lookup dim with
  | none => rw [hl] at hdx; simp only [Option.getD] at hdx; constructor <;>
      [linarith [hdx.symm ▸ (by norm_num : (0:ℚ) ≤ 1/2)];
       linarith [hdx.symm ▸ (by norm_num : (1/2:ℚ) ≤ 1)]]
  | some v =>
    rw [hl] at hdx
    simp only [Option.getD] at hdx
    have := hfs (dim, v) (mem_of_lookup_eq_some hl)
    exact hdx ▸ this

/-- Clipping fixes values already inside the unit interval. -/
theorem clip01_of_mem (x : ℚ) (h0 : 0 ≤ x) (h1 : x ≤ 1) : clip01 x = x := by
  unfold clip01
  rw [max_eq_left h0, min_eq_left h1]

/-- Adding the zero noise vector and clipping returns the user vector
unchanged when its components are inside [0, 1]. -/
theorem noisyVec_zero (u : List ℚ) (hlen : u.length ≤ 6)
    (hb : ∀ x ∈ u, 0 ≤ x ∧ x ≤ 1) :
    noisyVec u (List.replicate 6 0) = u := by
  unfold noisyVec
  have hz : ∀ (n : ℕ) (l : List ℚ), l.length ≤ n →
      List.zipWith (fun a b => a + b) l (List.replicate n (0 : ℚ)) = l := by
    intro n
    induction n with
    | zero =>
      intro l hl
      have hnil : l = [] := List.length_eq_zero.mp (Nat.le_zero.mp hl)
      rw [hnil]
      rfl
    | succ m ih =>
      intro l hl
      cases l with
      | nil => rfl
      | cons a rest =>
        simp only [List.replicate, List.zipWith_cons_cons, add_zero]
        exact congrArg (a :: ·) (ih rest (Nat.le_of_succ_le_succ hl))
  rw [hz 6 u hlen]
  have hm : ∀ l : List ℚ, (∀ x ∈ l, 0 ≤ x ∧ x ≤ 1) → l.map clip01 = l := by
    intro l hl
    induction l with
    | nil => rfl
    | cons a rest ih =>
      simp only [List.map_cons]
      rw [clip01_of_mem a (hl a (List.mem_cons_self a rest)).1
          (hl a (List.mem_cons_self a rest)).2,
        ih (fun x hx => hl x (List.mem_cons_of_mem a hx))]
  exact hm u hb

/-- The normalized mean of a nonempty list of Likert values lies in the
unit interval. -/
theorem meanScore_bounds (vals : List ℚ) (hne : vals ≠ [])
    (hb : ∀ v ∈ vals, 1 ≤ v ∧ v ≤ 5) :
    0 ≤ ((vals.sum / (vals.length : ℚ)) - 1) / 4 ∧
      ((vals.sum / (vals.length : ℚ)) - 1) / 4 ≤ 1 := by
  have hpos : 0 < (vals.length : ℚ) := by
    exact_mod_cast List.length_pos.mpr hne
  have h1 : (vals.length : ℚ) ≤ vals.sum := by
    have := List.card_nsmul_le_sum vals (1 : ℚ) (fun x hx => (hb x hx).1)
    simpa [nsmul_eq_mul] using this
  have h2 : vals.sum ≤ (vals.length : ℚ) * 5 := by
    have := List.sum_le_card_nsmul vals (5 : ℚ) (fun x hx => (hb x hx).2)
    simpa [nsmul_eq_mul] using this
  have hm1 : 1 ≤ vals.sum / (vals.length : ℚ) := by
    rw [le_div_iff₀ hpos]; linarith
  have hm2 : vals.sum / (vals.length : ℚ) ≤ 5 := by
    rw [div_le_iff₀ hpos]; linarith
  exact ⟨by linarith, by linarith⟩

/-- Each reverse-adjusted answer value stays inside the Likert range. -/
theorem reverseAdjust_bounds (m : AnswerMeta)
    (hm : ∃ v, m.value = some v ∧ 1 ≤ v ∧ v ≤ 5) :
    1 ≤ reverseAdjust m ∧ reverseAdjust m ≤ 5 := by
  obtain ⟨v, hv, h1, h5⟩ := hm
  unfold reverseAdjust
  simp only [hv, Option.getD_some]
  by_cases hr : m.rev.getD false = true
  · rw [if_pos hr]; exact ⟨by linarith, by linarith⟩
  · rw [if_neg hr]; exact ⟨h1, h5⟩

/-- Claim C1: for answers whose entries carry a value in 1..5,
normalize_scores produces one score per core dimension (six in total);
a dimension with contributing answers scores (mean - 1) / 4 over its
reverse-adjusted values, which lies in [0, 1]; a dimension with no
contributing answers scores exactly the midpoint 1/2. -/
theorem claim_C1 (answers : List AnswerMeta)
    (hv : ∀ m ∈ answers, ∃ v, m.value = some v ∧ 1 ≤ v ∧ v ≤ 5)
    (dim : String) (hdim : dim ∈ CORE_DIMENSIONS) :
    (normalize_scores answers).length = 6 ∧
    (dim, dimScore answers dim) ∈ normalize_scores answers ∧
    (dimensionValues answers dim = [] → dimScore answers dim = 1/2) ∧
    (dimensionValues answers dim ≠ [] →
      dimScore answers dim =
        (((dimensionValues answers dim).sum /
          ((dimensionValues answers dim).length : ℚ)) - 1) / 4 ∧
      0 ≤ dimScore answers dim ∧ dimScore answers dim ≤ 1) := by
  refine ⟨by simp [normalize_scores, CORE_DIMENSIONS], ?_, ?_, ?_⟩
  · exact List.mem_map.mpr ⟨dim, hdim, rfl⟩
  · intro hemp
    simp [dimScore, hemp]
  · intro hne
    have hniE : (dimensionValues answers dim).isEmpty = false := by
      cases hval : dimensionValues answers dim with
      | nil => exact absurd hval hne
      | cons a l => rfl
    have hform : dimScore answers dim =
        (((dimensionValues answers dim).sum /
          ((dimensionValues answers dim).length : ℚ)) - 1) / 4 := by
      simp [dimScore, hniE]
    have hbv : ∀ v ∈ dimensionValues answers dim, 1 ≤ v ∧ v ≤ 5 := by
      intro v hvv
      obtain ⟨m, hmf, hmv⟩ := List.mem_map.mp hvv
      have hma : m ∈ answers := List.mem_of_mem_filter hmf
      exact hmv ▸ reverseAdjust_bounds m (hv m hma)
    have := meanScore_bounds (dimensionValues answers dim) hne hbv
    exact ⟨hform, hform ▸ this.1, hform ▸ this.2⟩

/-- Witness for claim C1 at the concrete demoAnswers: response_tempo gets
values 4 and (reverse-scored) 5, so its score (mean 4.5 mapped to 7/8)
exists, is listed, and lies in [0, 1]. -/
theorem claim_C1_witness :
    (normalize_scores demoAnswers).length = 6 ∧
    ("response_tempo", dimScore demoAnswers "response_tempo") ∈
      normalize_scores demoAnswers ∧
    0 ≤ dimScore demoAnswers "response_tempo" ∧
    dimScore demoAnswers "response_tempo" ≤ 1 := by
  have hv : ∀ m ∈ demoAnswers, ∃ v, m.value = some v ∧ 1 ≤ v ∧ v ≤ 5 := by
    intro m hm
    simp only [demoAnswers, List.mem_cons, List.not_mem_nil, or_false] at hm
    rcases hm with rfl | rfl | rfl
    · exact ⟨4, rfl, by norm_num, by norm_num⟩
    · exact ⟨1, rfl, by norm_num, by norm_num⟩
    · exact ⟨2, rfl, by norm_num, by norm_num⟩
  have h := claim_C1 demoAnswers hv "response_tempo" (by decide)
  have hne : dimensionValues demoAnswers "response_tempo" ≠ [] := by decide
  exact ⟨h.1, h.2.1, (h.2.2.2 hne).2.1, (h.2.2.2 hne).2.2⟩

/-- Zipping a list with its own image pairs each element with its image. -/
theorem zip_self_map {α β : Type} (f : α → β) :
    ∀ l : List α, l.zip (l.map f) = l.map (fun a => (a, f a))
  | [] => rfl
  | a :: l => by
    simp only [List.map_cons, List.zip_cons_cons, zip_self_map f l]

/-- Claim C9: every archetype vector has exactly one component per core
dimension (six), each component comes from the palette 1, 0.7, 0.4, 0.5,
and when a dimension is listed in several tiers the highest tier wins. -/
theorem claim_C9 (a : Archetype) :
    (build_archetype_vector a).length = 6 ∧
    ∀ p ∈ CORE_DIMENSIONS.zip (build_archetype_vector a), TierSpec a p := by
  refine ⟨by simp [build_archetype_vector, CORE_DIMENSIONS], ?_⟩
  intro p hp
  unfold build_archetype_vector at hp
  rw [zip_self_map] at hp
  obtain ⟨d, _, rfl⟩ := List.mem_map.mp hp
  unfold TierSpec
  by_cases h1 : d ∈ a.primary_dimensions
  · simp [h1]
  · by_cases h2 : d ∈ a.secondary_dimensions
    · simp [h1, h2]
    · by_cases h3 : d ∈ a.tertiary_dimensions
      · simp [h1, h2, h3]
      · simp [h1, h2, h3]

/-- Witness for claim C9 at the concrete archA: its vector has six
components and the pair for the primary dimension satisfies the tier
characterization (component 1). -/
theorem claim_C9_witness :
    (build_archetype_vector archA).length = 6 ∧
    TierSpec archA ("clinical_decision_style", 1) := by
  refine ⟨(claim_C9 archA).1, (claim_C9 archA).2 _ ?_⟩
  decide

/-- Unfolding of determine_archetype on a nonempty catalog. -/
theorem determine_archetype_cons (final_scores : List (String × ℚ))
    (a : String × Archetype) (l : List (String × Archetype)) :
    determine_archetype final_scores (a :: l) =
      ((bestLoop (userVec final_scores) (a :: l) none (-(10 ^ 9 : ℝ))).1,
        match (bestLoop (userVec final_scores) (a :: l) none (-(10 ^ 9 : ℝ))).1 with
        | none => default
        | some n => ((a :: l).lookup n).getD default) := rfl

/-- Unfolding of monte_carlo_probabilities on a nonempty catalog. -/
theorem monte_carlo_cons (final_scores : List (String × ℚ))
    (a : String × Archetype) (l : List (String × Archetype)) (trials : ℕ)
    (noiseF : ℕ → List ℚ) :
    monte_carlo_probabilities final_scores (a :: l) trials noiseF =
      match mcLoop (a :: l) (userVec final_scores) noiseF trials with
      | none => none
      | some counts =>
        mcFinish (counts.map
          (fun p => (p.1, (p.2 : ℚ) / (trials : ℚ) * 100))) := rfl

/-- The Monte Carlo finishing step always succeeds on a nonempty
probability dict and hands the dict back unchanged. -/
theorem mcFinish_some (probs : List (String × ℚ)) (h : probs ≠ []) :
    ∃ stab shadow, mcFinish probs = some (probs, stab, shadow) := by
  obtain ⟨q, hq, _, _⟩ := pyMax_spec probs h
  unfold mcFinish
  rw [hq]
  cases hs : sortedProbs probs with
  | nil => exact ⟨_, _, rfl⟩
  | cons x rest =>
    cases rest with
    | nil => exact ⟨_, _, rfl⟩
    | cons y rest2 => exact ⟨_, _, rfl⟩

/-- What a successful finishing step returned: the same probability dict
and the looked-up share of the first-maximal entry as stability. -/
theorem mcFinish_inv (probs0 probs : List (String × ℚ)) (stab : ℚ)
    (shadow : String × ℚ) (h : mcFinish probs0 = some (probs, stab, shadow)) :
    probs = probs0 ∧ ∃ primary, pyMax probs0 = some primary ∧
      stab = (probs0.lookup primary.1).getD 0 := by
  unfold mcFinish at h
  cases hq : pyMax probs0 with
  | none => rw [hq] at h; exact absurd h (by simp)
  | some primary =>
    rw [hq] at h
    cases hs : sortedProbs probs0 with
    | nil =>
      rw [hs] at h
      simp only [Option.some.injEq, Prod.mk.injEq] at h
      exact ⟨h.1.symm, primary, rfl, h.2.1.symm⟩
    | cons x rest =>
      cases rest with
      | nil =>
        rw [hs] at h
        simp only [Option.some.injEq, Prod.mk.injEq] at h
        exact ⟨h.1.symm, primary, rfl, h.2.1.symm⟩
      | cons y rest2 =>
        rw [hs] at h
        simp only [Option.some.injEq, Prod.mk.injEq] at h
        exact ⟨h.1.symm, primary, rfl, h.2.1.symm⟩

/-- Evaluation rule for a hybrid score whose rational parts are known and
whose radicand has an explicit nonnegative square root. -/
theorem archeScore_eval (v : List ℚ) (p : String × Archetype) (s d : ℚ)
    (hs : weighted_similarity v (build_archetype_vector p.2)
        (extract_weight_vector p.2) = s)
    (hd : weighted_distance_sq v (build_archetype_vector p.2)
        (extract_weight_vector p.2) = d)
    (r : ℝ) (hr : 0 ≤ r) (hrd : r ^ 2 = ((d : ℚ) : ℝ)) :
    archeScore v p = ((s : ℚ) : ℝ) - r := by
  unfold archeScore hybrid_score weighted_distance
  rw [hs, hd, ← hrd, Real.sqrt_sq hr]

/-- No name is bucketed more often than there are trials. -/
theorem trialCount_le (archetypes : List (String × Archetype)) (u : List ℚ)
    (noiseF : ℕ → List ℚ) (trials : ℕ) (name : String) :
    trialCount archetypes u noiseF trials name ≤ trials := by
  classical
  unfold trialCount
  calc ((Finset.range trials).filter
        (fun t => mc_choice archetypes u noiseF t = some name)).card
      ≤ (Finset.range trials).card := Finset.card_filter_le _ _
    _ = trials := Finset.card_range trials

/-- A frequency percentage over a positive trial count lies in [0, 100]. -/
theorem prob_bounds (cnt trials : ℕ) (ht : 0 < trials) (hc : cnt ≤ trials) :
    0 ≤ ((cnt : ℚ) / (trials : ℚ)) * 100 ∧
      ((cnt : ℚ) / (trials : ℚ)) * 100 ≤ 100 := by
  have htq : 0 < (trials : ℚ) := by exact_mod_cast ht
  constructor
  · positivity
  · have hle : (cnt : ℚ) / (trials : ℚ) ≤ 1 := by
      rw [div_le_one htq]; exact_mod_cast hc
    linarith

/-- hybridFor is the hybrid score against the derived user vector. -/
theorem hybridFor_def (final_scores : List (String × ℚ))
    (p : String × Archetype) :
    hybridFor final_scores p = archeScore (userVec final_scores) p := rfl

/-- The default user vector (empty final scores) is all 0.5. -/
theorem uv_nil : userVec [] = [1/2, 1/2, 1/2, 1/2, 1/2, 1/2] := rfl

/-- The user vector of fsOne: 1 on the first dimension, 0.5 elsewhere. -/
theorem uv_fsOne : userVec fsOne = [1, 1/2, 1/2, 1/2, 1/2, 1/2] := rfl

/-- The pathological archetype's pattern vector is all 0.5. -/
theorem bv_cex :
    build_archetype_vector cexArch = [1/2, 1/2, 1/2, 1/2, 1/2, 1/2] := rfl

/-- The pathological archetype's weight vector is all -(10^10). -/
theorem wv_cex : extract_weight_vector cexArch =
    [-(10 ^ 10 : ℚ), -(10 ^ 10), -(10 ^ 10), -(10 ^ 10), -(10 ^ 10),
     -(10 ^ 10)] := rfl

/-- archA's pattern vector: 1 on its primary dimension, 0.5 elsewhere. -/
theorem bv_A : build_archetype_vector archA = [1, 1/2, 1/2, 1/2, 1/2, 1/2] :=
  rfl

/-- archA's weight vector: 1 on the first dimension, 0 elsewhere. -/
theorem wv_A : extract_weight_vector archA = [1, 0, 0, 0, 0, 0] := rfl

/-- archB's pattern vector is all 0.5. -/
theorem bv_B : build_archetype_vector archB = [1/2, 1/2, 1/2, 1/2, 1/2, 1/2] :=
  rfl

/-- archB's weight vector: 1 on the first dimension, 0 elsewhere. -/
theorem wv_B : extract_weight_vector archB = [1, 0, 0, 0, 0, 0] := rfl

/-- The pathological archetype scores -1.5e10 against the default all-0.5
user vector: the weighted squared distance cancels to zero and the
similarity is 6 * (-(10^10)) * 0.25. -/
theorem cexScore_eval :
    archeScore (userVec []) ("A", cexArch) = (-15000000000 : ℝ) := by
  have h := archeScore_eval (userVec []) ("A", cexArch) (-15000000000) 0
    (by show weighted_similarity (userVec []) (build_archetype_vector cexArch)
          (extract_weight_vector cexArch) = -15000000000
        rw [uv_nil, bv_cex, wv_cex]
        norm_num [weighted_similarity, List.zipWith3])
    (by show weighted_distance_sq (userVec []) (build_archetype_vector cexArch)
          (extract_weight_vector cexArch) = 0
        rw [uv_nil, bv_cex, wv_cex]
        norm_num [weighted_distance_sq, List.zipWith3])
    0 le_rfl (by norm_num)
  rw [h]
  norm_num

/-- archA scores exactly 1 against the user vector of fsOne. -/
theorem scoreA_fsOne : archeScore (userVec fsOne) ("A", archA) = (1 : ℝ) := by
  have h := archeScore_eval (userVec fsOne) ("A", archA) 1 0
    (by show weighted_similarity (userVec fsOne) (build_archetype_vector archA)
          (extract_weight_vector archA) = 1
        rw [uv_fsOne, bv_A, wv_A]
        norm_num [weighted_similarity, List.zipWith3])
    (by show weighted_distance_sq (userVec fsOne) (build_archetype_vector archA)
          (extract_weight_vector archA) = 0
        rw [uv_fsOne, bv_A, wv_A]
        norm_num [weighted_distance_sq, List.zipWith3])
    0 le_rfl (by norm_num)
  rw [h]
  norm_num

/-- archB scores exactly 0 against the user vector of fsOne. -/
theorem scoreB_fsOne : archeScore (userVec fsOne) ("B", archB) = (0 : ℝ) := by
  have h := archeScore_eval (userVec fsOne) ("B", archB) (1/2) (1/4)
    (by show weighted_similarity (userVec fsOne) (build_archetype_vector archB)
          (extract_weight_vector archB) = 1/2
        rw [uv_fsOne, bv_B, wv_B]
        norm_num [weighted_similarity, List.zipWith3])
    (by show weighted_distance_sq (userVec fsOne) (build_archetype_vector archB)
          (extract_weight_vector archB) = 1/4
        rw [uv_fsOne, bv_B, wv_B]
        norm_num [weighted_distance_sq, List.zipWith3])
    (1/2) (by norm_num) (by norm_num)
  rw [h]
  norm_num

/-- The selection loop never moves off the sentinel on the pathological
catalog, so it reports no name. -/
theorem bestLoop_cex :
    bestLoop (userVec []) cexCat none (-(10 ^ 9 : ℝ)) =
      (none, -(10 ^ 9 : ℝ)) := by
  show bestLoop (userVec []) (("A", cexArch) :: []) none (-(10 ^ 9 : ℝ)) = _
  simp only [bestLoop, cexScore_eval]
  rw [if_neg (by norm_num)]

/-- determine_archetype on the pathological catalog returns (None, empty). -/
theorem determine_cex :
    determine_archetype [] cexCat = (none, default) := by
  show determine_archetype [] (("A", cexArch) :: []) = _
  rw [determine_archetype_cons]
  have hb : bestLoop (userVec []) (("A", cexArch) :: []) none
      (-(10 ^ 9 : ℝ)) = (none, -(10 ^ 9 : ℝ)) := bestLoop_cex
  rw [hb]

/-- Claim C2, amended: on a catalog with distinct names in which some
archetype's hybrid score beats the loop's -1e9 sentinel,
determine_archetype returns a catalog name with its stored entry, of
maximal hybrid score. -/
theorem claim_C2 (final_scores : List (String × ℚ))
    (archetypes : List (String × Archetype))
    (hnd : (archetypes.map Prod.fst).Nodup)
    (hex : ∃ p ∈ archetypes, -(10 ^ 9 : ℝ) < hybridFor final_scores p) :
    C2Claim final_scores archetypes := by
  obtain ⟨p0, hp0, heq, hmax⟩ := bestLoop_argmax (userVec final_scores)
    archetypes (by simpa only [hybridFor_def] using hex)
  refine ⟨p0.1, p0.2, ?_, ?_, ?_⟩
  · cases archetypes with
    | nil => cases hp0
    | cons a l =>
      rw [determine_archetype_cons]
      have h1 : (bestLoop (userVec final_scores) (a :: l) none
          (-(10 ^ 9 : ℝ))).1 = some p0.1 := by rw [heq]
      rw [h1]
      show (some p0.1, ((a :: l).lookup p0.1).getD default) = _
      rw [lookup_of_mem_nodup hnd hp0]
      rfl
  · rw [Prod.mk.eta]; exact hp0
  · intro q hq
    simp only [hybridFor_def, Prod.mk.eta]
    exact hmax q hq

/-- Counterexample to claim C2 as stated: the catalog whose only archetype
carries weight -(10^10) on every dimension is nonempty with distinct
names, yet determine_archetype returns no catalog name (its Python value
is (None, empty dict)). -/
theorem claim_C2_cex :
    cexCat ≠ [] ∧ (cexCat.map Prod.fst).Nodup ∧ ¬ C2Claim [] cexCat := by
  refine ⟨by decide, by decide, ?_⟩
  rintro ⟨N, data, heq, -, -⟩
  rw [determine_cex] at heq
  exact Option.noConfusion (congrArg Prod.fst heq)

/-- Witness for the amended claim C2 at the concrete catalog catAB and
final scores fsOne. -/
theorem claim_C2_witness : C2Claim fsOne catAB := by
  apply claim_C2 fsOne catAB (by decide)
  refine ⟨("A", archA), by decide, ?_⟩
  rw [hybridFor_def, scoreA_fsOne]
  norm_num

/-- Claim C7: load_json returns the parsed contents when the file reads and
parses, and returns the supplied default (raising nothing, being a total
function) when the read fails or the contents do not parse. -/
theorem claim_C7 (α : Type) (readFile : String → Except String String)
    (parseJson : String → Except String α) (path : String) (d : α) :
    (∀ s v, readFile path = Except.ok s → parseJson s = Except.ok v →
      load_json α readFile parseJson path d = v) ∧
    (∀ e, readFile path = Except.error e →
      load_json α readFile parseJson path d = d) ∧
    (∀ s e, readFile path = Except.ok s → parseJson s = Except.error e →
      load_json α readFile parseJson path d = d) := by
  refine ⟨?_, ?_, ?_⟩
  · intro s v hr hp
    simp only [load_json, hr, hp]
  · intro e hr
    simp only [load_json, hr]
  · intro s e hr hp
    simp only [load_json, hr, hp]

/-- A two-file filesystem oracle for the load_json witness. -/
def demoRead : String → Except String String :=
  fun p => if p = "data/questions.json" then Except.ok "[]"
    else Except.error "missing"

/-- A parser oracle recognizing only the empty JSON array. -/
def demoParse : String → Except String ℕ :=
  fun s => if s = "[]" then Except.ok 0 else Except.error "bad"

/-- Witness for claim C7: the present file parses to the value, the absent
file falls back to the default. -/
theorem claim_C7_witness :
    load_json ℕ demoRead demoParse "data/questions.json" 7 = 0 ∧
    load_json ℕ demoRead demoParse "nope.json" 7 = 7 := by
  constructor
  · exact (claim_C7 ℕ demoRead demoParse "data/questions.json" 7).1 "[]" 0
      rfl rfl
  · exact (claim_C7 ℕ demoRead demoParse "nope.json" 7).2.1 "missing" rfl

/-- Claim C8: on an empty catalog both engine entry points return their
fixed sentinels, for every final_scores input (and any trial count and
noise for the Monte Carlo run). -/
theorem claim_C8 :
    ∀ (final_scores : List (String × ℚ)) (trials : ℕ) (noiseF : ℕ → List ℚ),
    determine_archetype final_scores [] = (none, default) ∧
    monte_carlo_probabilities final_scores [] trials noiseF =
      some ([], 0, ("None", 0)) :=
  fun _ _ _ => ⟨rfl, rfl⟩

/-- Claim C10: every call of log_to_google_sheets that reaches the row
construction hits the undefined name final_str, raises NameError and never
reaches sheet.append_row. -/
theorem claim_C10 (final_archetype stability shadow scores raw_answers : String) :
    log_to_google_sheets final_archetype stability shadow scores raw_answers =
      Except.error "NameError: name final_str is not defined" ∧
    rowAppended final_archetype stability shadow scores raw_answers = false :=
  ⟨rfl, rfl⟩

/-- Claim C3, amended: whenever the call returns (no trial leaves the -1e9
sentinel unbeaten), each of the exactly `trials` iterations buckets its
clipped resample to an archetype of maximal hybrid score, and the returned
dict assigns every archetype the probability (count / trials) * 100, which
lies in [0, 100] for positive trials. -/
theorem claim_C3 (final_scores : List (String × ℚ))
    (archetypes : List (String × Archetype)) (trials : ℕ)
    (noiseF : ℕ → List ℚ) (hne : archetypes ≠ []) (ht : 0 < trials)
    (hsucc : monte_carlo_probabilities final_scores archetypes trials noiseF ≠
      none) :
    C3Claim final_scores archetypes trials noiseF := by
  cases archetypes with
  | nil => exact absurd rfl hne
  | cons a l =>
    rw [monte_carlo_cons] at hsucc
    cases hml : mcLoop (a :: l) (userVec final_scores) noiseF trials with
    | none => rw [hml] at hsucc; exact absurd rfl hsucc
    | some counts =>
      have hch := mcLoop_choices_of_some (a :: l) (userVec final_scores)
        noiseF trials counts hml
      have hcform := mcLoop_some_eq (a :: l) (userVec final_scores) noiseF
        trials counts hml
      constructor
      · intro t htt
        have hcne := hch t htt
        rcases (bestLoop_spec (noisyVec (userVec final_scores) (noiseF t))
            (a :: l) none (-(10 ^ 9 : ℝ))).2.2 with heq0 | ⟨p, hp, heq0⟩
        · exfalso
          apply hcne
          unfold mc_choice
          rw [heq0]
        · refine ⟨p, hp, ?_, ?_⟩
          · unfold mc_choice
            rw [heq0]
          · intro q hq
            have hle := (bestLoop_spec (noisyVec (userVec final_scores)
                (noiseF t)) (a :: l) none (-(10 ^ 9 : ℝ))).1 q hq
            rw [heq0] at hle
            exact hle
      · have hpne : counts.map
            (fun p => (p.1, (p.2 : ℚ) / (trials : ℚ) * 100)) ≠ [] := by
          rw [hcform]
          simp
        obtain ⟨stab, shadow, hfin⟩ := mcFinish_some _ hpne
        refine ⟨counts.map (fun p => (p.1, (p.2 : ℚ) / (trials : ℚ) * 100)),
          stab, shadow, ?_, ?_, ?_⟩
        · rw [monte_carlo_cons, hml]
          exact hfin
        · rw [hcform, List.map_map]
          rfl
        · intro q hq
          rw [hcform, List.map_map] at hq
          obtain ⟨p, _, hpq⟩ := List.mem_map.mp hq
          have hb := prob_bounds
            (trialCount (a :: l) (userVec final_scores) noiseF trials p.1)
            trials ht (trialCount_le _ _ _ _ _)
          rw [← hpq]
          simpa using hb

/-- On the pathological catalog the single trial's selection loop keeps
best_name = None. -/
theorem mc_choice_cex : mc_choice cexCat (userVec []) zeroNoise 0 = none := by
  unfold mc_choice
  have hnv : noisyVec (userVec []) (zeroNoise 0) = userVec [] :=
    noisyVec_zero (userVec []) (by rw [userVec_length])
      (userVec_mem_unit [] (by intro q hq; cases hq))
  rw [hnv, bestLoop_cex]

/-- The Monte Carlo counting loop on the pathological catalog models the
Python KeyError: it returns nothing after the first trial. -/
theorem mcLoop_cex : mcLoop cexCat (userVec []) zeroNoise 1 = none := by
  show mcLoop cexCat (userVec []) zeroNoise (0 + 1) = none
  simp only [mcLoop, mc_choice_cex]

/-- monte_carlo_probabilities on the pathological catalog raises (returns
nothing) instead of producing probabilities. -/
theorem mc_cex_eval :
    monte_carlo_probabilities [] cexCat 1 zeroNoise = none := by
  show monte_carlo_probabilities [] (("A", cexArch) :: []) 1 zeroNoise = none
  rw [monte_carlo_cons]
  have h : mcLoop (("A", cexArch) :: []) (userVec []) zeroNoise 1 = none :=
    mcLoop_cex
  rw [h]

/-- Counterexample to claim C3 as stated: on the nonempty pathological
catalog with one trial, monte_carlo_probabilities raises a KeyError
(modelled none) and returns no probabilities at all. -/
theorem claim_C3_cex :
    cexCat ≠ [] ∧ 0 < 1 ∧ ¬ C3Claim [] cexCat 1 zeroNoise := by
  refine ⟨by decide, by decide, ?_⟩
  rintro ⟨-, probs, stab, shadow, hmc, -, -⟩
  rw [mc_cex_eval] at hmc
  exact Option.noConfusion hmc

/-- The selection loop on catAB against the fsOne user vector picks A
(score 1 beats the sentinel, B's score 0 does not beat 1). -/
theorem bestLoop_AB :
    bestLoop (userVec fsOne) (("A", archA) :: ("B", archB) :: []) none
      (-(10 ^ 9 : ℝ)) = (some "A", 1) := by
  simp only [bestLoop, scoreA_fsOne, scoreB_fsOne]
  rw [if_pos (by norm_num : (1 : ℝ) > -(10 ^ 9)),
    if_neg (by norm_num : ¬ ((0 : ℝ) > 1))]

/-- The entries of fsOne lie inside the unit interval. -/
theorem fsOne_unit : ∀ q ∈ fsOne, 0 ≤ q.2 ∧ q.2 ≤ 1 := by
  intro q hq
  simp only [fsOne, List.mem_cons, List.not_mem_nil, or_false] at hq
  subst hq
  norm_num

/-- With zero noise every trial on catAB buckets to A. -/
theorem choice_AB_zero (t : ℕ) :
    mc_choice (("A", archA) :: ("B", archB) :: []) (userVec fsOne) zeroNoise
      t = some "A" := by
  unfold mc_choice
  have hnv : noisyVec (userVec fsOne) (zeroNoise t) = userVec fsOne :=
    noisyVec_zero (userVec fsOne) (by rw [userVec_length])
      (userVec_mem_unit fsOne fsOne_unit)
  rw [hnv, bestLoop_AB]

/-- The one-trial zero-noise counting loop on catAB: one hit for A. -/
theorem mcLoop_AB_zero :
    mcLoop (("A", archA) :: ("B", archB) :: []) (userVec fsOne) zeroNoise 1 =
      some [("A", 1), ("B", 0)] := by
  show mcLoop (("A", archA) :: ("B", archB) :: []) (userVec fsOne) zeroNoise
    (0 + 1) = _
  simp only [mcLoop, choice_AB_zero]
  decide

/-- Percentage conversion of the counts of the one-trial catAB run. -/
theorem probsmap_AB :
    ([("A", (1 : ℕ)), ("B", 0)].map
      (fun p => (p.1, (p.2 : ℚ) / ((1 : ℕ) : ℚ) * 100))) =
      [("A", (100 : ℚ)), ("B", 0)] := by
  norm_num

/-- The full one-trial zero-noise Monte Carlo run on catAB: A gets 100%,
stability 100, shadow ("B", 0). -/
theorem mc_AB_run :
    monte_carlo_probabilities fsOne catAB 1 zeroNoise =
      some ([("A", (100 : ℚ)), ("B", 0)], 100, ("B", 0)) := by
  show monte_carlo_probabilities fsOne (("A", archA) :: ("B", archB) :: []) 1
    zeroNoise = _
  rw [monte_carlo_cons]
  simp only [mcLoop_AB_zero]
  rw [probsmap_AB]
  decide

/-- determine_archetype on catAB with fsOne returns A with its entry. -/
theorem det_AB : determine_archetype fsOne catAB = (some "A", archA) := by
  show determine_archetype fsOne (("A", archA) :: ("B", archB) :: []) = _
  rw [determine_archetype_cons, bestLoop_AB]
  rfl

/-- Witness for the amended claim C3 at the concrete zero-noise one-trial
run on catAB with fsOne. -/
theorem claim_C3_witness : C3Claim fsOne catAB 1 zeroNoise :=
  claim_C3 fsOne catAB 1 zeroNoise (by decide) (by decide)
    (by rw [mc_AB_run]; exact fun h => Option.noConfusion h)

/-- The flip-noise resample of the fsOne user vector: the first coordinate
drops to 0 (after clipping), the rest stay 0.5. -/
theorem nvFlip : noisyVec (userVec fsOne) (flipNoise 0) =
    [0, 1/2, 1/2, 1/2, 1/2, 1/2] := by
  rw [uv_fsOne]
  show ([(1 : ℚ) + -1, 1/2 + 0, 1/2 + 0, 1/2 + 0, 1/2 + 0, 1/2 + 0].map
    clip01) = _
  norm_num [clip01, max_def, min_def]

/-- archA scores -1 against the flipped resample. -/
theorem scoreA_flip :
    archeScore [0, 1/2, 1/2, 1/2, 1/2, 1/2] ("A", archA) = (-1 : ℝ) := by
  have h := archeScore_eval [0, 1/2, 1/2, 1/2, 1/2, 1/2] ("A", archA) 0 1
    (by show weighted_similarity [0, 1/2, 1/2, 1/2, 1/2, 1/2]
          (build_archetype_vector archA) (extract_weight_vector archA) = 0
        rw [bv_A, wv_A]
        norm_num [weighted_similarity, List.zipWith3])
    (by show weighted_distance_sq [0, 1/2, 1/2, 1/2, 1/2, 1/2]
          (build_archetype_vector archA) (extract_weight_vector archA) = 1
        rw [bv_A, wv_A]
        norm_num [weighted_distance_sq, List.zipWith3])
    1 (by norm_num) (by norm_num)
  rw [h]
  norm_num

/-- archB scores -1/2 against the flipped resample. -/
theorem scoreB_flip :
    archeScore [0, 1/2, 1/2, 1/2, 1/2, 1/2] ("B", archB) = (-(1/2) : ℝ) := by
  have h := archeScore_eval [0, 1/2, 1/2, 1/2, 1/2, 1/2] ("B", archB) 0 (1/4)
    (by show weighted_similarity [0, 1/2, 1/2, 1/2, 1/2, 1/2]
          (build_archetype_vector archB) (extract_weight_vector archB) = 0
        rw [bv_B, wv_B]
        norm_num [weighted_similarity, List.zipWith3])
    (by show weighted_distance_sq [0, 1/2, 1/2, 1/2, 1/2, 1/2]
          (build_archetype_vector archB) (extract_weight_vector archB) = 1/4
        rw [bv_B, wv_B]
        norm_num [weighted_distance_sq, List.zipWith3])
    (1/2) (by norm_num) (by norm_num)
  rw [h]
  norm_num

/-- On the flipped resample B overtakes A in the selection loop. -/
theorem bestLoop_flip :
    bestLoop [0, 1/2, 1/2, 1/2, 1/2, 1/2]
      (("A", archA) :: ("B", archB) :: []) none (-(10 ^ 9 : ℝ)) =
      (some "B", -(1/2)) := by
  simp only [bestLoop, scoreA_flip, scoreB_flip]
  rw [if_pos (by norm_num : (-1 : ℝ) > -(10 ^ 9)),
    if_pos (by norm_num : (-(1/2) : ℝ) > -1)]

/-- The flip-noise trial buckets to B. -/
theorem choice_flip :
    mc_choice (("A", archA) :: ("B", archB) :: []) (userVec fsOne) flipNoise
      0 = some "B" := by
  unfold mc_choice
  rw [nvFlip, bestLoop_flip]

/-- The one-trial flip-noise counting loop: one hit for B. -/
theorem mcLoop_flip :
    mcLoop (("A", archA) :: ("B", archB) :: []) (userVec fsOne) flipNoise 1 =
      some [("A", 0), ("B", 1)] := by
  show mcLoop (("A", archA) :: ("B", archB) :: []) (userVec fsOne) flipNoise
    (0 + 1) = _
  simp only [mcLoop, choice_flip]
  decide

/-- Percentage conversion of the counts of the flip-noise run. -/
theorem probsmap_flip :
    ([("A", (0 : ℕ)), ("B", 1)].map
      (fun p => (p.1, (p.2 : ℚ) / ((1 : ℕ) : ℚ) * 100))) =
      [("A", (0 : ℚ)), ("B", 100)] := by
  norm_num

/-- The full one-trial flip-noise Monte Carlo run on catAB: B gets 100%,
stability 100 (B's share), shadow ("A", 0). -/
theorem mc_flip_run :
    monte_carlo_probabilities fsOne catAB 1 flipNoise =
      some ([("A", (0 : ℚ)), ("B", 100)], 100, ("A", 0)) := by
  show monte_carlo_probabilities fsOne (("A", archA) :: ("B", archB) :: []) 1
    flipNoise = _
  rw [monte_carlo_cons]
  simp only [mcLoop_flip]
  rw [probsmap_flip]
  decide

/-- Python's max over the flip-noise probabilities is B with 100. -/
theorem pyMax_flip :
    pyMax [("A", (0 : ℚ)), ("B", 100)] = some ("B", 100) := by
  decide

/-- Claim C4: a successful Monte Carlo run on a nonempty catalog with
distinct names reports as stability exactly the maximum of the returned
probability percentages. -/
theorem claim_C4 (final_scores : List (String × ℚ))
    (archetypes : List (String × Archetype)) (trials : ℕ)
    (noiseF : ℕ → List ℚ) (probs : List (String × ℚ)) (stab : ℚ)
    (shadow : String × ℚ) (hne : archetypes ≠ [])
    (hnd : (archetypes.map Prod.fst).Nodup)
    (hres : monte_carlo_probabilities final_scores archetypes trials noiseF =
      some (probs, stab, shadow)) :
    isMaxVal stab probs := by
  cases archetypes with
  | nil => exact absurd rfl hne
  | cons a l =>
    rw [monte_carlo_cons] at hres
    cases hml : mcLoop (a :: l) (userVec final_scores) noiseF trials with
    | none => rw [hml] at hres; exact absurd hres (by simp)
    | some counts =>
      rw [hml] at hres
      obtain ⟨hpe, primary, hpm, hstab⟩ := mcFinish_inv _ _ _ _ hres
      have hcform := mcLoop_some_eq (a :: l) (userVec final_scores) noiseF
        trials counts hml
      have hkeys : probs.map Prod.fst = (a :: l).map Prod.fst := by
        rw [hpe, hcform, List.map_map, List.map_map]
        rfl
      have hnd2 : (probs.map Prod.fst).Nodup := by rw [hkeys]; exact hnd
      have hpne : probs ≠ [] := by
        intro hcon
        rw [hcon, List.map_nil, List.map_cons] at hkeys
        exact List.noConfusion hkeys
      obtain ⟨q, hq, hqmem, hqmax⟩ := pyMax_spec probs hpne
      rw [← hpe] at hpm hstab
      rw [hq] at hpm
      have hqp : q = primary := Option.some_injective _ hpm
      subst hqp
      have hlk : probs.lookup q.1 = some q.2 := lookup_of_mem_nodup hnd2 hqmem
      rw [hlk] at hstab
      simp only [Option.getD_some] at hstab
      subst hstab
      refine ⟨List.mem_map_of_mem Prod.snd hqmem, ?_⟩
      intro v hv
      obtain ⟨pp, hpp, hv2⟩ := List.mem_map.mp hv
      rw [← hv2]
      exact hqmax pp hpp

/-- Witness for claim C4 at the concrete one-trial zero-noise run on catAB:
the reported stability 100 is the maximum of the returned percentages. -/
theorem claim_C4_witness : isMaxVal 100 [("A", (100 : ℚ)), ("B", 0)] :=
  claim_C4 fsOne catAB 1 zeroNoise [("A", 100), ("B", 0)] 100 ("B", 0)
    (by decide) (by decide) mc_AB_run

/-- Claim C6: a successful Monte Carlo run on a catalog of at least two
archetypes returns as shadow an entry of the probability dict of
second-highest value (one entry of at least its value sits on top, every
remaining entry is at most it). -/
theorem claim_C6 (final_scores : List (String × ℚ))
    (archetypes : List (String × Archetype)) (trials : ℕ)
    (noiseF : ℕ → List ℚ) (probs : List (String × ℚ)) (stab : ℚ)
    (shadow : String × ℚ) (hlen : 2 ≤ archetypes.length)
    (hres : monte_carlo_probabilities final_scores archetypes trials noiseF =
      some (probs, stab, shadow)) :
    C6Claim probs shadow := by
  cases archetypes with
  | nil => simp at hlen
  | cons a l =>
    rw [monte_carlo_cons] at hres
    cases hml : mcLoop (a :: l) (userVec final_scores) noiseF trials with
    | none => rw [hml] at hres; exact absurd hres (by simp)
    | some counts =>
      rw [hml] at hres
      have hres2 : mcFinish (counts.map
          (fun p => (p.1, (p.2 : ℚ) / (trials : ℚ) * 100))) =
          some (probs, stab, shadow) := hres
      clear hres
      have hcform := mcLoop_some_eq (a :: l) (userVec final_scores) noiseF
        trials counts hml
      have hlen0 : 2 ≤ (counts.map
          (fun p => (p.1, (p.2 : ℚ) / (trials : ℚ) * 100))).length := by
        rw [List.length_map, hcform, List.length_map]
        exact hlen
      unfold mcFinish at hres2
      cases hq : pyMax (counts.map
          (fun p => (p.1, (p.2 : ℚ) / (trials : ℚ) * 100))) with
      | none => rw [hq] at hres2; exact absurd hres2 (by simp)
      | some primary =>
        rw [hq] at hres2
        have hsp : (sortedProbs (counts.map
            (fun p => (p.1, (p.2 : ℚ) / (trials : ℚ) * 100)))).length =
            (counts.map
              (fun p => (p.1, (p.2 : ℚ) / (trials : ℚ) * 100))).length :=
          (sortedProbs_perm _).length_eq
        cases hs : sortedProbs (counts.map
            (fun p => (p.1, (p.2 : ℚ) / (trials : ℚ) * 100))) with
        | nil =>
          rw [hs] at hsp
          rw [← hsp] at hlen0
          exact absurd hlen0 (by norm_num)
        | cons x rest =>
          cases rest with
          | nil =>
            rw [hs] at hsp
            rw [← hsp] at hlen0
            exact absurd hlen0 (by norm_num)
          | cons y rest2 =>
            rw [hs] at hres2
            simp only [Option.some.injEq, Prod.mk.injEq] at hres2
            obtain ⟨h1, -, h3⟩ := hres2
            have hsorted := sortedProbs_sorted (counts.map
              (fun p => (p.1, (p.2 : ℚ) / (trials : ℚ) * 100)))
            rw [hs] at hsorted
            obtain ⟨hx, hsorted2⟩ := List.sorted_cons.mp hsorted
            obtain ⟨hy, -⟩ := List.sorted_cons.mp hsorted2
            refine ⟨x, rest2, ?_, ?_, ?_⟩
            · rw [← h1, ← h3]
              have hper := (sortedProbs_perm (counts.map
                (fun p => (p.1, (p.2 : ℚ) / (trials : ℚ) * 100)))).symm
              rw [hs] at hper
              exact hper
            · rw [← h3]
              exact hx y (List.mem_cons_self y rest2)
            · intro q hq2
              rw [← h3]
              exact hy q hq2

/-- Witness for claim C6 at the concrete one-trial zero-noise run on catAB:
the shadow ("B", 0) is the runner-up entry of the returned dict. -/
theorem claim_C6_witness : C6Claim [("A", (100 : ℚ)), ("B", 0)] ("B", 0) :=
  claim_C6 fsOne catAB 1 zeroNoise [("A", 100), ("B", 0)] 100 ("B", 0)
    (by decide) mc_AB_run

/-- Claim C5, amended: with all noise samples zero, final scores inside
[0, 1], distinct catalog names, positive trials and some archetype beating
the -1e9 sentinel, the archetype whose share the Monte Carlo run reports
as stability is exactly the primary archetype of determine_archetype. -/
theorem claim_C5 (final_scores : List (String × ℚ))
    (archetypes : List (String × Archetype)) (trials : ℕ)
    (noiseF : ℕ → List ℚ) (hne : archetypes ≠ [])
    (hnd : (archetypes.map Prod.fst).Nodup) (ht : 0 < trials)
    (hzero : ∀ t, noiseF t = List.replicate 6 0)
    (hfs : ∀ q ∈ final_scores, 0 ≤ q.2 ∧ q.2 ≤ 1)
    (hex : ∃ p ∈ archetypes, -(10 ^ 9 : ℝ) < hybridFor final_scores p) :
    C5Claim final_scores archetypes trials noiseF := by
  have hnv : ∀ t, noisyVec (userVec final_scores) (noiseF t) =
      userVec final_scores := by
    intro t
    rw [hzero t]
    exact noisyVec_zero _ (by rw [userVec_length])
      (userVec_mem_unit _ hfs)
  obtain ⟨p0, hp0, heq, hmax⟩ := bestLoop_argmax (userVec final_scores)
    archetypes (by simpa only [hybridFor_def] using hex)
  have hchoice : ∀ t, mc_choice archetypes (userVec final_scores) noiseF t =
      some p0.1 := by
    intro t
    unfold mc_choice
    rw [hnv t, heq]
  have hml := mcLoop_eq_of_choices archetypes (userVec final_scores) noiseF
    trials (fun s _ => by
      rw [hchoice s]; exact fun hcon => Option.noConfusion hcon)
  have htq : ((trials : ℕ) : ℚ) ≠ 0 := by
    exact_mod_cast ht.ne'
  have hcnt_p0 : trialCount archetypes (userVec final_scores) noiseF trials
      p0.1 = trials := by
    unfold trialCount
    rw [Finset.filter_true_of_mem (fun t _ => hchoice t), Finset.card_range]
  have hcnt_other : ∀ name, name ≠ p0.1 →
      trialCount archetypes (userVec final_scores) noiseF trials name = 0 := by
    intro name hn
    unfold trialCount
    rw [Finset.filter_false_of_mem, Finset.card_empty]
    intro t _
    rw [hchoice t]
    intro hcon
    exact hn (Option.some_injective _ hcon).symm
  have hval_p0 : ((trialCount archetypes (userVec final_scores) noiseF trials
      p0.1 : ℚ) / (trials : ℚ)) * 100 = 100 := by
    rw [hcnt_p0, div_self htq, one_mul]
  have hval_other : ∀ name, name ≠ p0.1 →
      ((trialCount archetypes (userVec final_scores) noiseF trials name : ℚ) /
        (trials : ℚ)) * 100 = 0 := by
    intro name hn
    rw [hcnt_other name hn]
    norm_num
  cases archetypes with
  | nil => exact absurd rfl hne
  | cons a l =>
    set F := fun p : String × Archetype => (p.1,
      ((trialCount (a :: l) (userVec final_scores) noiseF trials p.1 : ℚ) /
        (trials : ℚ)) * 100) with hF
    set probs0 := (a :: l).map F with hprobs0
    have hpne : probs0 ≠ [] := by rw [hprobs0]; simp
    obtain ⟨stab, shadow, hfin⟩ := mcFinish_some probs0 hpne
    have hmc : monte_carlo_probabilities final_scores (a :: l) trials noiseF =
        some (probs0, stab, shadow) := by
      rw [monte_carlo_cons]
      simp only [hml]
      rw [show (((a :: l).map (fun p => (p.1, trialCount (a :: l)
          (userVec final_scores) noiseF trials p.1))).map
            (fun p => (p.1, (p.2 : ℚ) / (trials : ℚ) * 100))) = probs0 from by
        rw [List.map_map, hprobs0]
        rfl]
      exact hfin
    obtain ⟨q, hq, hqmem, hqmax⟩ := pyMax_spec probs0 hpne
    have hmem100 : (p0.1, (100 : ℚ)) ∈ probs0 := by
      rw [hprobs0]
      refine List.mem_map.mpr ⟨p0, hp0, ?_⟩
      show (p0.1, ((trialCount (a :: l) (userVec final_scores) noiseF trials
        p0.1 : ℚ) / (trials : ℚ)) * 100) = (p0.1, 100)
      rw [hval_p0]
    have hq100 : 100 ≤ q.2 := by
      have := hqmax (p0.1, 100) hmem100
      simpa using this
    have hqform : q = (p0.1, (100 : ℚ)) := by
      rw [hprobs0] at hqmem
      obtain ⟨pp, hpp, hppq⟩ := List.mem_map.mp hqmem
      by_cases hcase : pp.1 = p0.1
      · rw [← hppq]
        show (pp.1, ((trialCount (a :: l) (userVec final_scores) noiseF trials
          pp.1 : ℚ) / (trials : ℚ)) * 100) = (p0.1, 100)
        rw [hcase, hval_p0]
      · exfalso
        have hz : q.2 = 0 := by
          rw [← hppq]
          show ((trialCount (a :: l) (userVec final_scores) noiseF trials
            pp.1 : ℚ) / (trials : ℚ)) * 100 = 0
          exact hval_other pp.1 hcase
        rw [hz] at hq100
        norm_num at hq100
    subst hqform
    obtain ⟨-, primary, hpm, hstab⟩ := mcFinish_inv probs0 probs0 stab shadow
      hfin
    rw [hq] at hpm
    have hprim : primary = (p0.1, (100 : ℚ)) :=
      (Option.some_injective _ hpm).symm
    subst hprim
    have hnd0 : (probs0.map Prod.fst).Nodup := by
      rw [hprobs0, List.map_map]
      exact hnd
    have hlk : probs0.lookup p0.1 = some (100 : ℚ) :=
      lookup_of_mem_nodup hnd0 hmem100
    rw [hlk] at hstab
    simp only [Option.getD_some] at hstab
    refine ⟨probs0, stab, shadow, (p0.1, 100), hmc, hq, hstab, ?_⟩
    rw [determine_archetype_cons]
    show (bestLoop (userVec final_scores) (a :: l) none (-(10 ^ 9 : ℝ))).1 =
      some p0.1
    rw [heq]

/-- Counterexample to claim C5 as stated: on catAB with fsOne, one trial
and the flip-noise resample, the Monte Carlo stability share belongs to B
while determine_archetype reports A. -/
theorem claim_C5_cex :
    catAB ≠ [] ∧ (catAB.map Prod.fst).Nodup ∧
      ¬ C5Claim fsOne catAB 1 flipNoise := by
  refine ⟨by decide, by decide, ?_⟩
  rintro ⟨probs, stab, shadow, primary, hmc, hpm, hstab, hdet⟩
  rw [mc_flip_run] at hmc
  simp only [Option.some.injEq, Prod.mk.injEq] at hmc
  obtain ⟨hprobs, -, -⟩ := hmc
  rw [← hprobs] at hpm
  rw [pyMax_flip] at hpm
  have hprim : ("B", (100 : ℚ)) = primary := Option.some_injective _ hpm
  rw [det_AB] at hdet
  rw [← hprim] at hdet
  have : "A" = "B" := Option.some_injective _ hdet
  exact absurd this (by decide)

/-- Witness for the amended claim C5 at the concrete zero-noise one-trial
run on catAB with fsOne. -/
theorem claim_C5_witness : C5Claim fsOne catAB 1 zeroNoise := by
  apply claim_C5 fsOne catAB 1 zeroNoise (by decide) (by decide) (by decide)
    (fun _ => rfl) fsOne_unit
  refine ⟨("A", archA), by decide, ?_⟩
  rw [hybridFor_def, scoreA_fsOne]
  norm_num

end DTypeSpec
